import Mathlib

/-!
# Verification of the Tic-Tac-Toe neuro-evolution core

Shallow embedding of the core of the `AI-t2-tic-tac-toe` repository:

* `Board` / `GameState` (`src/board.py`): 3×3 grid, cached winner,
  move legality, application and reversal;
* `MinimaxPlayer` (`src/minimax_player.py`): exhaustive in-place minimax
  with apply/undo discipline and difficulty degradation;
* `RedeNeuralMLP` (`src/neural_network.py`): 180-weight flat encoding,
  forward inference, legal-move-masked action selection;
* `GeneticAlgorithm` (`src/genetic_algorithm.py`): tag-based fitness
  simulation and the generational evolution loop.

Python in-place mutation is embedded as explicit state passing: functions
that mutate the board return the new `GameState`.  Randomness
(`random.random`, `random.sample`, `np.random.normal`) is passed in as
explicit streams.  Floating-point numbers are modelled over an arbitrary
linear ordered field, so every definition stays executable; `np.tanh` is
abstracted as an arbitrary activation `σ` (every theorem below holds for
any activation, in particular for the hyperbolic tangent).
-/

/-- Board cell contents: `"X"` (the neural-network player,
`NN_PLAYER_SYMBOL`), `"O"` (`OPPONENT_PLAYER_SYMBOL`) or the empty cell
`" "` from `src/config.py`. -/
inductive Cell where
  | X : Cell
  | O : Cell
  | E : Cell
deriving DecidableEq, Repr

/-- `Board` from `src/board.py`: a 3×3 grid of cells together with the
cached winner `current_winner` (set by `make_move`, cleared by
`undo_move` and `reset`). -/
structure GameState where
  cells : Fin 3 → Fin 3 → Cell
  winner : Option Cell

instance : DecidableEq GameState := fun a b =>
  decidable_of_iff (a.cells = b.cells ∧ a.winner = b.winner) (by
    constructor
    · rintro ⟨h1, h2⟩
      cases a; cases b
      simp_all
    · intro h
      cases h
      exact ⟨rfl, rfl⟩)

/-- `Board.reset`: the empty board with no cached winner. -/
def GameState.reset : GameState := { cells := fun _ _ => Cell.E, winner := none }

/-- Helper to build a 3×3 grid from a row-major list of 9 cells. -/
def boardOfList (l : List Cell) : Fin 3 → Fin 3 → Cell :=
  fun r c => l.getD (3 * r.val + c.val) Cell.E

/-- `Board.get_valid_moves`: row-major list of the `(row, col)` pairs of
empty cells. -/
def getValidMoves (g : GameState) : List (Fin 3 × Fin 3) :=
  (List.finRange 3).flatMap fun r =>
    ((List.finRange 3).filter fun c => g.cells r c = Cell.E).map fun c => (r, c)

/-- `Board.check_winner(symbol)`: the three rows, three columns and two
diagonals, exactly as iterated by the source. -/
def checkWinner (g : GameState) (s : Cell) : Bool :=
  ((List.finRange 3).any fun i => (List.finRange 3).all fun j => g.cells i j = s) ||
  ((List.finRange 3).any fun i => (List.finRange 3).all fun j => g.cells j i = s) ||
  ((List.finRange 3).all fun i => g.cells i i = s) ||
  ((List.finRange 3).all fun i => g.cells i (2 - i) = s)

/-- Writing one cell of the grid (`self.board[move[0]][move[1]] = symbol`). -/
def setCell (g : GameState) (m : Fin 3 × Fin 3) (s : Cell) : GameState :=
  { g with cells := fun r c => if r = m.1 ∧ c = m.2 then s else g.cells r c }

/-- `Board.make_move(move, symbol)` for an in-range `(row, col)` pair
(`Fin 3 × Fin 3` carries the range check of `is_move_valid`): writes the
symbol if the cell is empty and caches the winner when the move wins;
returns the updated state and the success flag. -/
def makeMoveF (g : GameState) (m : Fin 3 × Fin 3) (s : Cell) : GameState × Bool :=
  if g.cells m.1 m.2 = Cell.E then
    let g1 := setCell g m s
    (if checkWinner g1 s then { g1 with winner := some s } else g1, true)
  else (g, false)

/-- `Board.undo_move(move)`: sets the cell back to empty and
unconditionally clears the cached winner. -/
def undoMoveF (g : GameState) (m : Fin 3 × Fin 3) : GameState :=
  { cells := fun r c => if r = m.1 ∧ c = m.2 then Cell.E else g.cells r c,
    winner := none }

/-- `Board.is_draw`. -/
def isDraw (g : GameState) : Bool :=
  g.winner = none && (getValidMoves g).isEmpty

/-- `Board.is_game_over`. -/
def isGameOver (g : GameState) : Bool :=
  g.winner.isSome || (getValidMoves g).isEmpty

/-- `OPPONENT_PLAYER_SYMBOL if player_symbol == max_player else
NN_PLAYER_SYMBOL` — the `other_player` computation of
`MinimaxPlayer.minimax` (`max_player = NN_PLAYER_SYMBOL = "X"`). -/
def otherOf (p : Cell) : Cell :=
  if p = Cell.X then Cell.O else Cell.X

/-- `MinimaxPlayer.minimax(state_game, player_symbol)` from
`src/minimax_player.py`, with the in-place board mutation made explicit:
the result is the best `{"position", "score"}` pair together with the
board state as the call leaves it.  `fuel` bounds the recursion depth
(any `fuel >` number of empty cells is enough; the fuel-0 branch is
never reached from `chooseMove`).  The running best of the Python loop
starts at score `-inf`/`+inf`; this is embedded as an `Option` that the
first finite child score always replaces. -/
def minimax : ℕ → GameState → Cell → (Option (Fin 3 × Fin 3) × ℤ) × GameState
  | 0, g, _ => ((none, 0), g)
  | fuel + 1, g, p =>
    if g.winner = some (otherOf p) then
      let score : ℤ := (getValidMoves g).length + 1
      ((none, if otherOf p = Cell.X then score else -score), g)
    else if getValidMoves g = [] then
      ((none, 0), g)
    else
      let out := (getValidMoves g).foldl
        (fun (acc : GameState × Option (Option (Fin 3 × Fin 3) × ℤ)) m =>
          let g1 := (makeMoveF acc.1 m p).1
          let r := minimax fuel g1 (otherOf p)
          let g3 := undoMoveF r.2 m
          let sim : Option (Fin 3 × Fin 3) × ℤ := (some m, r.1.2)
          (g3, match acc.2 with
            | none => some sim
            | some b =>
              if p = Cell.X then (if r.1.2 > b.2 then some sim else some b)
              else (if r.1.2 < b.2 then some sim else some b)))
        (g, none)
      (out.2.getD (none, 0), out.1)

/-- One iteration of the move loop of `minimax` (apply, recurse, undo,
update the running best), extracted so the loop can be reasoned about;
`minimax` β-reduces to a fold of exactly this step. -/
def mmStep (fuel : ℕ) (p : Cell)
    (acc : GameState × Option (Option (Fin 3 × Fin 3) × ℤ)) (m : Fin 3 × Fin 3) :
    GameState × Option (Option (Fin 3 × Fin 3) × ℤ) :=
  let g1 := (makeMoveF acc.1 m p).1
  let r := minimax fuel g1 (otherOf p)
  let g3 := undoMoveF r.2 m
  let sim : Option (Fin 3 × Fin 3) × ℤ := (some m, r.1.2)
  (g3, match acc.2 with
    | none => some sim
    | some b =>
      if p = Cell.X then (if r.1.2 > b.2 then some sim else some b)
      else (if r.1.2 < b.2 then some sim else some b))

/-- The difficulty strings accepted by `MinimaxPlayer.choose_move`;
`other` stands for any string that is neither `"hard"` nor `"medium"`
(the function then falls through and returns `None`). -/
inductive Difficulty where
  | hard : Difficulty
  | medium : Difficulty
  | other : Difficulty
deriving DecidableEq

/-- `MinimaxPlayer.choose_move(game, player_symbol)`: `None` on a full
board; hard mode always searches; medium mode searches with probability
0.5 (`rd` is the `random.random()` draw) and otherwise plays
`random.choice(valid_moves)` (`rc` indexes the drawn element).  Returns
the move together with the board state the call leaves behind. -/
def chooseMove (g : GameState) (p : Cell) (d : Difficulty) (rd : ℚ) (rc : ℕ) :
    Option (Fin 3 × Fin 3) × GameState :=
  let valid := getValidMoves g
  if valid = [] then (none, g)
  else
    match d with
    | .hard => let r := minimax 10 g p; (r.1.1, r.2)
    | .medium =>
      if rd < 1/2 then let r := minimax 10 g p; (r.1.1, r.2)
      else (some (valid.getD (rc % valid.length) (0, 0)), g)
    | .other => (none, g)

/-!
## The neural policy (`RedeNeuralMLP`, `src/neural_network.py`)

Weights, board inputs and scores live in an arbitrary linear ordered
field `R` (the source uses IEEE doubles); the hidden activation
(`np.tanh` in the source) is an arbitrary function `σ : R → R`, so all
definitions stay executable and every theorem holds for the source's
choice of activation.
-/

/-- The decoded network: `W1` (9×9), `b1` (9), `W2` (9×9), `b2` (9),
the fields produced by `RedeNeuralMLP._extrair_pesos`. -/
structure RedeNeuralMLP (R : Type) where
  W1 : List (List R)
  b1 : List R
  W2 : List (List R)
  b2 : List R

/-- `numpy.reshape(9, 9)` of a flat row-major list: `n` consecutive
rows of 9 entries. -/
def chunk9 {R : Type} : ℕ → List R → List (List R)
  | 0, _ => []
  | n + 1, l => l.take 9 :: chunk9 n (l.drop 9)

/-- `RedeNeuralMLP._extrair_pesos(pesos)`: slices the flat weight
vector as `pesos[0:81] → W1`, `pesos[81:90] → b1`,
`pesos[90:171] → W2`, `pesos[171:180] → b2`, reshaping the two 81-entry
slices to 9×9. -/
def extrairPesos {R : Type} (pesos : List R) : RedeNeuralMLP R :=
  { W1 := chunk9 9 (pesos.take 81)
    b1 := (pesos.drop 81).take 9
    W2 := chunk9 9 ((pesos.drop 90).take 81)
    b2 := pesos.drop 171 }

/-- `RedeNeuralMLP.obter_pesos_planos()`: `np.concatenate([W1.flatten(),
b1, W2.flatten(), b2])`. -/
def obterPesosPlanos {R : Type} (net : RedeNeuralMLP R) : List R :=
  net.W1.flatten ++ net.b1 ++ net.W2.flatten ++ net.b2

/-- Entry `W[i][j]` of a weight matrix stored as a list of rows. -/
def entryD {R : Type} [Zero R] (W : List (List R)) (i j : ℕ) : R :=
  (W.getD i []).getD j 0

/-- `RedeNeuralMLP.propagacao(entrada)`: `h1 = σ(entrada @ W1 + b1)`,
`saida = h1 @ W2 + b2` (linear output layer).  The source's `σ` is
`np.tanh`. -/
def propagacao {R : Type} [LinearOrderedField R] (σ : R → R)
    (net : RedeNeuralMLP R) (entrada : Fin 9 → R) : Fin 9 → R :=
  let z1 : Fin 9 → R := fun j => (∑ i, entrada i * entryD net.W1 i.val j.val) + net.b1.getD j.val 0
  let h1 : Fin 9 → R := fun j => σ (z1 j)
  fun j => (∑ i, h1 i * entryD net.W2 i.val j.val) + net.b2.getD j.val 0

/-- `np.where(tabuleiro == 0, scores, -np.inf)`: the score of an
occupied cell is masked to `-inf` (the bottom of `WithBot R`). -/
def mascarar {R : Type} [Zero R] [DecidableEq R] (tab : Fin 9 → R) (scores : Fin 9 → R) :
    Fin 9 → WithBot R :=
  fun i => if tab i = 0 then (scores i : WithBot R) else ⊥

/-- `np.argmax`: first index attaining the maximum (later entries
replace the running best only on a strictly greater value). -/
def npArgmax {R : Type} [LinearOrder R] (v : Fin 9 → WithBot R) : Fin 9 :=
  (List.finRange 9).foldl (fun b i => if v b < v i then i else b) 0

/-- `RedeNeuralMLP.escolher_jogada(tabuleiro)`: forward pass, mask the
occupied cells to `-inf`, and if every masked score is `-inf` fall back
(`np.random.choice` over the free cells — provably empty in exact
arithmetic — and ultimately position `0` as the last resort), otherwise
return the arg-max.  The source returns a plain `int`, never `None`. -/
def escolherJogada {R : Type} [LinearOrderedField R] [DecidableEq R] (σ : R → R)
    (net : RedeNeuralMLP R) (tab : Fin 9 → R) : Fin 9 :=
  let scores := propagacao σ net tab
  let masked := mascarar tab scores
  if (List.finRange 9).all (fun i => masked i = ⊥) then
    match (List.finRange 9).filter (fun i => tab i = 0) with
    | [] => 0
    | i :: _ => i
  else npArgmax masked

/-!
## Fitness evaluation (`GeneticAlgorithm._calculate_fitness`,
`src/genetic_algorithm.py`)

The neural player's `choose_move` (an arbitrary, possibly broken,
policy) and the opponent's `choose_move` are passed in as functions; the
policy may return `None` or an arbitrary, possibly out-of-range,
`(row, col)` pair of machine integers, exactly as the evaluator must
assume.
-/

/-- The move tags of the fitness system (`FITNESS_WEIGHTS` keys in
`src/config.py`). -/
inductive Tag where
  | invalid_other_pos | invalid_own_pos | in_progress | prioritary
  | offensive | defensive | draw | defeat | victory
deriving DecidableEq, Repr

/-- The `FITNESS_WEIGHTS` table of `src/config.py`. -/
def fitnessWeight : Tag → ℤ
  | .invalid_other_pos => -30
  | .invalid_own_pos => -50
  | .in_progress => 3
  | .prioritary => 2
  | .offensive => 5
  | .defensive => 10
  | .draw => 25
  | .defeat => -15
  | .victory => 30

/-- The `result` variable of `_calculate_fitness`: initialized to
`"invalid"`; set to `"win"`, `"loss"` or `"draw"` after the loop. -/
inductive Outcome where
  | invalid | win | loss | draw
deriving DecidableEq, Repr

/-- `Board.is_move_valid(move)` for an arbitrary policy move: `False`
for `None` or an out-of-range pair, otherwise the emptiness of the
addressed cell. -/
def isMoveValidZ (g : GameState) : Option (ℤ × ℤ) → Bool
  | none => false
  | some (r, c) =>
    if h : 0 ≤ r ∧ r < 3 ∧ 0 ≤ c ∧ c < 3 then
      g.cells ⟨r.toNat, by omega⟩ ⟨c.toNat, by omega⟩ = Cell.E
    else false

/-- `Board.make_move` applied to an arbitrary policy move (the `None` /
out-of-range cases fail the internal `is_move_valid` check and leave
the board unchanged). -/
def makeMoveZ (g : GameState) (mo : Option (ℤ × ℤ)) (s : Cell) : GameState × Bool :=
  match mo with
  | none => (g, false)
  | some (r, c) =>
    if h : 0 ≤ r ∧ r < 3 ∧ 0 ≤ c ∧ c < 3 then
      makeMoveF g (⟨r.toNat, by omega⟩, ⟨c.toNat, by omega⟩) s
    else (g, false)

/-- `Board.undo_move` on a policy move; the evaluator only calls it on
a move it has just validated and applied, so the `None` / out-of-range
branches (which would raise in Python) are dead and leave the state
unchanged. -/
def undoMoveZ (g : GameState) (mo : Option (ℤ × ℤ)) : GameState :=
  match mo with
  | none => g
  | some (r, c) =>
    if h : 0 ≤ r ∧ r < 3 ∧ 0 ≤ c ∧ c < 3 then
      undoMoveF g (⟨r.toNat, by omega⟩, ⟨c.toNat, by omega⟩)
    else g

/-- `GeneticAlgorithm._is_winning_move(board, move, symbol)`: applies
the move, checks the winner, and undoes (pure here, so the undo is
dropped). -/
def isWinningMoveF (g : GameState) (m : Fin 3 × Fin 3) (s : Cell) : Bool :=
  checkWinner (makeMoveF g m s).1 s

/-- Python indexing `board[r][c]` with the language's negative-index
wraparound: defined for `-3 ≤ r, c < 3`, `None` (an `IndexError`)
otherwise. -/
def cellPy (g : GameState) (r c : ℤ) : Option Cell :=
  if h : -3 ≤ r ∧ r < 3 ∧ -3 ≤ c ∧ c < 3 then
    some (g.cells
      ⟨(r.emod 3).toNat, by
        have h1 : 0 ≤ r.emod 3 := Int.emod_nonneg r (by norm_num)
        have h2 : r.emod 3 < 3 := Int.emod_lt_of_pos r (by norm_num)
        omega⟩
      ⟨(c.emod 3).toNat, by
        have h1 : 0 ≤ c.emod 3 := Int.emod_nonneg c (by norm_num)
        have h2 : c.emod 3 < 3 := Int.emod_lt_of_pos c (by norm_num)
        omega⟩)
  else none

/-- The tag chosen by the `try`/`except` block of `_calculate_fitness`
when the policy's move is invalid: `invalid_own_pos` if the addressed
cell already holds the network's own symbol, `invalid_other_pos`
otherwise (including the `TypeError`/`IndexError` cases of a `None` or
un-indexable move). -/
def invalidTag (g : GameState) : Option (ℤ × ℤ) → Tag
  | none => Tag.invalid_other_pos
  | some (r, c) =>
    match cellPy g r c with
    | some Cell.X => Tag.invalid_own_pos
    | _ => Tag.invalid_other_pos

/-- `GeneticAlgorithm._is_defensive_move(board, move, opponent_symbol)`:
transcribed literally — the loop body requires `(r, c) != move` and then
`move == (r, c)`, so it never fires (the source always returns
`False`). -/
def isDefensiveMoveZ (g : GameState) (mo : Option (ℤ × ℤ)) (opp : Cell) : Bool :=
  (getValidMoves g).any fun rc =>
    (some ((rc.1.val : ℤ), (rc.2.val : ℤ)) ≠ mo) &&
    (isWinningMoveF g rc opp && (mo = some ((rc.1.val : ℤ), (rc.2.val : ℤ))))

/-- `GeneticAlgorithm._is_priority_move(move)`: centre or a corner. -/
def isPriorityMoveZ (mo : Option (ℤ × ℤ)) : Bool :=
  mo = some (1, 1) || mo = some (0, 0) || mo = some (0, 2) ||
  mo = some (2, 0) || mo = some (2, 2)

/-- The post-loop result classification of `_calculate_fitness`:
`win` / `loss` (appending the `defeat` tag) / `draw` (appending the
`draw` tag) / the initial `"invalid"` default, together with the final
board state. -/
def finishGame (g : GameState) (tags : List Tag) : List Tag × Outcome × GameState :=
  if g.winner = some Cell.X then (tags, Outcome.win, g)
  else if g.winner = some Cell.O then (tags ++ [Tag.defeat], Outcome.loss, g)
  else if isDraw g then (tags ++ [Tag.draw], Outcome.draw, g)
  else (tags, Outcome.invalid, g)

/-- The `while not board.is_game_over()` loop of
`GeneticAlgorithm._calculate_fitness`, one recursive call per loop
iteration (`fuel ≥ 5` covers every possible game; the fuel-0 branch is
never reached).  The policy moves as `"X"`, is stopped immediately with
the invalid tag on an illegal or `None` move, earns its move tags via
the apply/undo dance of the source, and hands the turn to the
opponent. -/
def simulateGame (policy opp : GameState → Option (ℤ × ℤ)) :
    ℕ → GameState → List Tag → List Tag × Outcome × GameState
  | 0, g, tags => finishGame g tags
  | fuel + 1, g, tags =>
    if isGameOver g then finishGame g tags
    else
      let mo := policy g
      if isMoveValidZ g mo = false then
        finishGame g (tags ++ [invalidTag g mo])
      else
        let tags1 := if isWinningMoveZ g mo Cell.X then tags ++ [Tag.victory] else tags
        let tags2 := if isDefensiveMoveZ g mo Cell.O then tags1 ++ [Tag.defensive] else tags1
        let g1 := (makeMoveZ g mo Cell.X).1
        let tags3 := if Tag.victory ∉ tags2 ∧ Tag.defensive ∉ tags2 then
          tags2 ++ [Tag.offensive] else tags2
        let g2 := undoMoveZ g1 mo
        let tags4 := if isPriorityMoveZ mo then tags3 ++ [Tag.prioritary] else tags3
        let g3 := (makeMoveZ g2 mo Cell.X).1
        let tags5 := tags4 ++ [Tag.in_progress]
        if isGameOver g3 then finishGame g3 tags5
        else
          let g4 := (makeMoveZ g3 (opp g3) Cell.O).1
          simulateGame policy opp fuel g4 tags5
where
  /-- `_is_winning_move` on the raw policy move. -/
  isWinningMoveZ (g : GameState) (mo : Option (ℤ × ℤ)) (s : Cell) : Bool :=
    checkWinner (makeMoveZ g mo s).1 s

/-- `GeneticAlgorithm._calculate_fitness(chromosome, minimax_player)`:
plays one game from a fresh board and sums the `FITNESS_WEIGHTS` of the
collected tags. -/
def calculateFitness (policy opp : GameState → Option (ℤ × ℤ)) : ℤ × Outcome :=
  let r := simulateGame policy opp 9 GameState.reset []
  ((r.1.map fitnessWeight).sum, r.2.1)

/-!
## The evolution loop (`GeneticAlgorithm.evolve`,
`src/genetic_algorithm.py`)

A chromosome is its flat weight list; fitness evaluation
(`_calculate_fitness` against the minimax trainer, which plays games and
draws random numbers) enters `evolve` as a function `f : Chrom → ℤ`
giving the value that this generation's evaluation assigns to each
chromosome.  The random draws of selection, crossover and mutation are
explicit streams, one record per iteration of the offspring loop.
-/

/-- A chromosome: the flat weight vector of one individual. -/
abbrev Chrom : Type := List ℚ

/-- Python's `max(participants, key=...)` on fitness: keeps the first
maximal element (later elements replace the best only when strictly
greater). -/
def maxByFit (l : List (Chrom × ℤ)) : Chrom × ℤ :=
  l.foldl (fun b x => if x.2 > b.2 then x else b) (l.headD ([], 0))

/-- One call of `GeneticAlgorithm._selection`: `random.sample` is the
supplied index list into the (sorted) scored population, and the
tournament keeps the fittest participant. -/
def selectionOp (pwf : List (Chrom × ℤ)) (samp : List ℕ) : Chrom :=
  (maxByFit (samp.filterMap fun i => pwf[i]?)).1

/-- `GeneticAlgorithm._crossover(parent1, parent2)`: with probability
`crossover_rate` (the draw `r` is `random.random()`) blend the parents
arithmetically with the mixing coefficient `α`, otherwise return the
parents as clones. -/
def crossoverOp (p1 p2 : Chrom) (r α rate : ℚ) : Chrom × Chrom :=
  if r > rate then (p1, p2)
  else
    ((List.zip p1 p2).map fun xy => xy.1 * α + xy.2 * (1 - α),
     (List.zip p1 p2).map fun xy => xy.2 * α + xy.1 * (1 - α))

/-- `GeneticAlgorithm._mutate(chromosome)`: per-gene coin flips against
`mutation_rate` and Gaussian perturbations, supplied as streams. -/
def mutateOp (c : Chrom) (coins noise : ℕ → ℚ) (rate : ℚ) : Chrom :=
  c.mapIdx fun i x => if coins i < rate then x + noise i else x

/-- The random draws consumed by one iteration of the offspring loop of
`evolve`: the two tournament samples, the crossover coin and mixing
coefficient, and the two mutation streams. -/
structure StepRand where
  samp1 : List ℕ
  samp2 : List ℕ
  crossCoin : ℚ
  alpha : ℚ
  mutCoin1 : ℕ → ℚ
  noise1 : ℕ → ℚ
  mutCoin2 : ℕ → ℚ
  noise2 : ℕ → ℚ

/-- The `while len(next_generation) < self.population_size` loop of
`evolve`: selection, crossover, mutation, appending one child and then,
if still short, the second.  One fuel unit per iteration; `evolve`
supplies `popSize` units, which always suffices because every iteration
appends at least one child. -/
def offspringLoop (sorted : List (Chrom × ℤ)) (popSize : ℕ) (crossRate mutRate : ℚ)
    (rnd : ℕ → StepRand) : ℕ → ℕ → List Chrom → List Chrom
  | 0, _, acc => acc
  | fuel + 1, n, acc =>
    if acc.length < popSize then
      let sr := rnd n
      let p1 := selectionOp sorted sr.samp1
      let p2 := selectionOp sorted sr.samp2
      let cpair := crossoverOp p1 p2 sr.crossCoin sr.alpha crossRate
      let acc1 := acc ++ [mutateOp cpair.1 sr.mutCoin1 sr.noise1 mutRate]
      let acc2 :=
        if acc1.length < popSize then
          acc1 ++ [mutateOp cpair.2 sr.mutCoin2 sr.noise2 mutRate]
        else acc1
      offspringLoop sorted popSize crossRate mutRate rnd fuel (n + 1) acc2
    else acc

/-- `GeneticAlgorithm.evolve`: score the population with this
generation's fitness evaluation `f`, sort descending by fitness
(Python's stable `sort(key=..., reverse=True)`), keep the best
chromosome by elitism and fill the rest of the next generation with the
offspring loop. -/
def evolve (pop : List Chrom) (f : Chrom → ℤ) (popSize : ℕ) (crossRate mutRate : ℚ)
    (rnd : ℕ → StepRand) : List Chrom :=
  let pwf := pop.map fun c => (c, f c)
  let sorted := pwf.mergeSort fun a b => b.2 ≤ a.2
  let best := (sorted.headD ([], 0)).1
  offspringLoop sorted popSize crossRate mutRate rnd popSize 0 [best]

/-- The best fitness present in a population under the evaluation `f`
(`⊥` for an empty population). -/
def genBest (f : Chrom → ℤ) (pop : List Chrom) : WithBot ℤ :=
  (pop.map f).maximum

/-!
## Proof-support definitions: the pure view of the minimax loop and the
concrete states used by the theorems below.
-/

/-- The score the minimax loop computes for the child reached by move
`m` from `g` (the board restoration proved below makes this a function
of `g` alone). -/
def scoreOf (fuel : ℕ) (p : Cell) (g : GameState) (m : Fin 3 × Fin 3) : ℤ :=
  (minimax fuel ((makeMoveF g m p).1) (otherOf p)).1.2

/-- The state-free view of one iteration of the minimax move loop:
just the running-best update against the child score `σ m`. -/
def pureStep (p : Cell) (σ : Fin 3 × Fin 3 → ℤ)
    (b : Option (Option (Fin 3 × Fin 3) × ℤ)) (m : Fin 3 × Fin 3) :
    Option (Option (Fin 3 × Fin 3) × ℤ) :=
  match b with
  | none => some (some m, σ m)
  | some q =>
    if p = Cell.X then (if σ m > q.2 then some (some m, σ m) else some q)
    else (if σ m < q.2 then some (some m, σ m) else some q)

/-- Board `[X, X, _, _, O, _, O, _, _]` of the specification's concrete
scenario: `X` to move, the only immediate winning move is cell 2
(row 0, column 2). -/
def c1board : GameState :=
  { cells := boardOfList [Cell.X, Cell.X, Cell.E, Cell.E, Cell.O, Cell.E, Cell.O, Cell.E, Cell.E]
    winner := none }

/-- A finished game: `X` has completed the top row and `make_move` has
cached the winner; cell `(1, 2)` is still empty, so the board still has
legal moves in the sense of `is_move_valid`. -/
def wonState : GameState :=
  { cells := boardOfList [Cell.X, Cell.X, Cell.X, Cell.O, Cell.O, Cell.E, Cell.E, Cell.E, Cell.E]
    winner := some Cell.X }

/-- A nearly full board on which `X` has already won (winner cached):
only cell `(2, 2)` is empty. -/
def wonStateFull : GameState :=
  { cells := boardOfList [Cell.X, Cell.X, Cell.X, Cell.O, Cell.O, Cell.X, Cell.O, Cell.X, Cell.E]
    winner := some Cell.X }

/-- A concrete random-draw record for the offspring loop. -/
def stepRand0 : StepRand :=
  { samp1 := [0, 1, 2, 3, 4], samp2 := [0, 1, 2, 3, 4]
    crossCoin := 0, alpha := 1/2
    mutCoin1 := fun _ => 1, noise1 := fun _ => 0
    mutCoin2 := fun _ => 1, noise2 := fun _ => 0 }

/-- A concrete five-chromosome population. -/
def pop5 : List Chrom := List.replicate 5 ([0] : List ℚ)

/-!
## Basic board lemmas
-/

/-- Two `GameState`s with the same grid and the same cached winner are
equal. -/
theorem gstate_eq (a b : GameState) (h1 : a.cells = b.cells)
    (h2 : a.winner = b.winner) : a = b := by
  cases a; cases b; simp_all

/-- Membership in `get_valid_moves` is emptiness of the addressed cell. -/
theorem mem_getValidMoves {g : GameState} {m : Fin 3 × Fin 3} :
    m ∈ getValidMoves g ↔ g.cells m.1 m.2 = Cell.E := by
  obtain ⟨r, c⟩ := m
  simp [getValidMoves, List.mem_flatMap, List.mem_filter]

/-- `make_move` on a legal move only rewrites the grid at that move. -/
theorem makeMoveF_fst_cells {g : GameState} {m : Fin 3 × Fin 3} {s : Cell}
    (hE : g.cells m.1 m.2 = Cell.E) :
    ((makeMoveF g m s).1).cells = (setCell g m s).cells := by
  unfold makeMoveF
  rw [if_pos hE]
  dsimp only
  split <;> rfl

/-- The cached winner after a legal `make_move`. -/
theorem makeMoveF_fst_winner {g : GameState} {m : Fin 3 × Fin 3} {s : Cell}
    (hE : g.cells m.1 m.2 = Cell.E) :
    ((makeMoveF g m s).1).winner =
      if checkWinner (setCell g m s) s then some s else g.winner := by
  unfold makeMoveF
  rw [if_pos hE]
  dsimp only
  split <;> rfl

/-- Key apply/undo helper: on a state with no cached winner, undoing a
legal move just applied restores the state exactly. -/
theorem undoMoveF_makeMoveF {g : GameState} {m : Fin 3 × Fin 3} {s : Cell}
    (hE : g.cells m.1 m.2 = Cell.E) (hw : g.winner = none) :
    undoMoveF (makeMoveF g m s).1 m = g := by
  apply gstate_eq
  · funext r c
    show (if r = m.1 ∧ c = m.2 then Cell.E else ((makeMoveF g m s).1).cells r c) = g.cells r c
    rw [makeMoveF_fst_cells hE]
    by_cases h : r = m.1 ∧ c = m.2
    · rw [if_pos h]
      obtain ⟨h1, h2⟩ := h
      rw [h1, h2, hE]
    · rw [if_neg h]
      show (if r = m.1 ∧ c = m.2 then s else g.cells r c) = g.cells r c
      rw [if_neg h]
  · show (none : Option Cell) = g.winner
    rw [hw]

/-!
## C2 — apply/undo round trip
-/

/-- C2 (counterexample): the claim "`apply` followed by `undo` on the
same move restores the state, for every `GameState` and every legal
move" is false as stated: on `wonState` (a finished game with the winner
cached, reached by real play) the move `(1, 2)` is legal in the sense of
`is_move_valid`, but `undo_move` unconditionally clears the cached
winner, so the state is not restored. -/
theorem apply_undo_not_restoring_on_cached_winner :
    wonState.cells 1 2 = Cell.E ∧
    undoMoveF (makeMoveF wonState (1, 2) Cell.O).1 (1, 2) ≠ wonState := by
  decide

/-- C2 (amended): for every `GameState` whose cached winner is `none`
(as holds at every apply site during search and play, where the game
stops as soon as a winner is cached) and every legal move,
`make_move` followed by `undo_move` on the same move restores the state
exactly — board contents and cached winner. -/
theorem apply_undo_restores (g : GameState) (m : Fin 3 × Fin 3) (s : Cell)
    (hE : g.cells m.1 m.2 = Cell.E) (hw : g.winner = none) :
    undoMoveF (makeMoveF g m s).1 m = g :=
  undoMoveF_makeMoveF hE hw

/-- C2 (witness): the amended round trip at a concrete state and move. -/
theorem apply_undo_restores_witness :
    undoMoveF (makeMoveF c1board (0, 2) Cell.X).1 (0, 2) = c1board :=
  apply_undo_restores c1board (0, 2) Cell.X (by decide) (by decide)

/-!
## C4 — decode/export round trip of the 180-weight layout
-/

/-- Flattening the 9-wide reshape recovers the first `9 * n` entries. -/
theorem flatten_chunk9 {R : Type} : ∀ (n : ℕ) (l : List R),
    (chunk9 n l).flatten = l.take (9 * n)
  | 0, l => by simp [chunk9]
  | n + 1, l => by
    have ih := flatten_chunk9 n (l.drop 9)
    simp only [chunk9, List.flatten_cons, ih]
    rw [show 9 * (n + 1) = 9 + 9 * n by ring, List.take_add]

/-- C4: decoding a 180-entry flat weight vector as `W1` (81 entries,
reshaped 9×9), `b1` (9), `W2` (81, reshaped 9×9), `b2` (9) — the layout
of `_extrair_pesos` — and exporting it back with `obter_pesos_planos`
reproduces the vector exactly. -/
theorem decode_export_round_trip (w : List ℝ) (_hw : w.length = 180) :
    obterPesosPlanos (extrairPesos w) = w := by
  unfold obterPesosPlanos extrairPesos
  dsimp only
  rw [flatten_chunk9, flatten_chunk9, List.take_take, List.take_take]
  norm_num
  have h3 : (w.drop 90).take 81 ++ w.drop 171 = w.drop 90 := by
    have : w.drop 171 = (w.drop 90).drop 81 := by
      rw [List.drop_drop]
    rw [this, List.take_append_drop]
  have h2 : (w.drop 81).take 9 ++ w.drop 90 = w.drop 81 := by
    have : w.drop 90 = (w.drop 81).drop 9 := by
      rw [List.drop_drop]
    rw [this, List.take_append_drop]
  calc w.take 81 ++ ((w.drop 81).take 9 ++ ((w.drop 90).take 81 ++ w.drop 171))
      = w.take 81 ++ ((w.drop 81).take 9 ++ w.drop 90) := by rw [h3]
    _ = w.take 81 ++ w.drop 81 := by rw [h2]
    _ = w := List.take_append_drop 81 w

/-- C4 (witness): the round trip at a concrete 180-entry vector. -/
theorem decode_export_round_trip_witness :
    obterPesosPlanos (extrairPesos (List.replicate 180 (0 : ℝ))) =
      List.replicate 180 (0 : ℝ) :=
  decode_export_round_trip (List.replicate 180 (0 : ℝ)) (List.length_replicate 180 0)

/-!
## C9 / C10 — legal-move masking of the neural policy
-/

/-- The running best of the `np.argmax` fold never decreases. -/
theorem argmax_fold_ge_init {R : Type} [LinearOrder R] (v : Fin 9 → WithBot R) :
    ∀ (l : List (Fin 9)) (b : Fin 9),
      v b ≤ v (l.foldl (fun b i => if v b < v i then i else b) b)
  | [], b => le_refl _
  | i :: t, b => by
    have step : v b ≤ v (if v b < v i then i else b) := by
      by_cases h : v b < v i
      · rw [if_pos h]; exact le_of_lt h
      · rw [if_neg h]
    exact le_trans step (argmax_fold_ge_init v t _)

/-- The `np.argmax` fold result dominates every scanned entry. -/
theorem argmax_fold_ge_mem {R : Type} [LinearOrder R] (v : Fin 9 → WithBot R) :
    ∀ (l : List (Fin 9)) (b : Fin 9) (i : Fin 9), i ∈ l →
      v i ≤ v (l.foldl (fun b i => if v b < v i then i else b) b)
  | [], _, _, hi => by simp at hi
  | j :: t, b, i, hi => by
    rcases List.mem_cons.mp hi with h | h
    · subst h
      have step : v i ≤ v (if v b < v i then i else b) := by
        by_cases hlt : v b < v i
        · rw [if_pos hlt]
        · rw [if_neg hlt]; exact le_of_not_lt hlt
      exact le_trans step (argmax_fold_ge_init v t _)
    · exact argmax_fold_ge_mem v t _ i h

/-- The mask sends an occupied cell's score to `-inf`. -/
theorem mascarar_of_occupied {R : Type} [Zero R] [DecidableEq R]
    (tab scores : Fin 9 → R) (j : Fin 9) (hj : ¬ tab j = 0) :
    mascarar tab scores j = ⊥ := by
  unfold mascarar
  rw [if_neg hj]

/-- The mask keeps the raw score of an empty cell. -/
theorem mascarar_of_empty {R : Type} [Zero R] [DecidableEq R]
    (tab scores : Fin 9 → R) (j : Fin 9) (hj : tab j = 0) :
    mascarar tab scores j = ((scores j : R) : WithBot R) := by
  unfold mascarar
  rw [if_pos hj]

/-- C9: for every board state with at least one empty cell and every
180-entry weight vector (and any hidden activation `σ` — in the source,
`np.tanh`), `escolher_jogada` returns an empty cell: the `-inf` masking
guarantees the arg-max never lands on an occupied cell. -/
theorem select_move_hits_empty_cell {R : Type} [LinearOrderedField R] [DecidableEq R]
    (σ : R → R) (w : List R) (_hw : w.length = 180) (tab : Fin 9 → R)
    (h : ∃ i, tab i = 0) :
    tab (escolherJogada σ (extrairPesos w) tab) = 0 := by
  obtain ⟨i0, h0⟩ := h
  unfold escolherJogada
  dsimp only
  rw [if_neg]
  · by_contra hocc
    have hmem : mascarar tab (propagacao σ (extrairPesos w) tab) i0 ≤
        mascarar tab (propagacao σ (extrairPesos w) tab)
          (npArgmax (mascarar tab (propagacao σ (extrairPesos w) tab))) :=
      argmax_fold_ge_mem (mascarar tab (propagacao σ (extrairPesos w) tab))
        (List.finRange 9) 0 i0 (List.mem_finRange i0)
    rw [mascarar_of_empty _ _ i0 h0, mascarar_of_occupied _ _ _ hocc] at hmem
    exact WithBot.coe_ne_bot (le_bot_iff.mp hmem)
  · intro hall
    have h1 := List.all_eq_true.mp hall i0 (List.mem_finRange i0)
    have h2 := of_decide_eq_true h1
    rw [mascarar_of_empty _ _ i0 h0] at h2
    exact WithBot.coe_ne_bot h2

/-- C9 (witness): a concrete board with cell 0 empty and the zero weight
vector over `ℚ` with the identity activation. -/
theorem select_move_hits_empty_cell_witness :
    (fun i : Fin 9 => if i = 0 then (0 : ℚ) else 1)
      (escolherJogada (fun x => x) (extrairPesos (List.replicate 180 (0 : ℚ)))
        (fun i : Fin 9 => if i = 0 then (0 : ℚ) else 1)) = 0 :=
  select_move_hits_empty_cell (fun x => x) (List.replicate 180 (0 : ℚ))
    (List.length_replicate 180 0) (fun i : Fin 9 => if i = 0 then (0 : ℚ) else 1)
    ⟨0, by norm_num⟩

/-- C10 (counterexample): on a board with no empty cell,
`RedeNeuralMLP.escolher_jogada` does not return `none` — its return
type is a plain cell index and the "último recurso" fallback yields
position `0` (here: all-occupied board, zero weights, identity
activation over `ℚ`). -/
theorem select_move_full_board_returns_zero_cex :
    escolherJogada (fun x => x) (extrairPesos (List.replicate 180 (0 : ℚ)))
      (fun _ : Fin 9 => 1) = 0 := by
  decide

/-- C10 (amended): for every board state with no empty cell and every
180-entry weight vector, `escolher_jogada` returns the fallback cell
index `0` rather than `none` (the variant `alt/core/mlp.py` is the one
that returns `None` on a full board). -/
theorem select_move_full_board_returns_zero {R : Type} [LinearOrderedField R]
    [DecidableEq R] (σ : R → R) (w : List R) (_hw : w.length = 180)
    (tab : Fin 9 → R) (h : ∀ i, tab i ≠ 0) :
    escolherJogada σ (extrairPesos w) tab = 0 := by
  unfold escolherJogada
  dsimp only
  rw [if_pos]
  · have hfilter : (List.finRange 9).filter (fun i => decide (tab i = 0)) = [] := by
      apply List.filter_eq_nil_iff.mpr
      intro i _
      simp [h i]
    rw [hfilter]
  · apply List.all_eq_true.mpr
    intro i _
    simp [mascarar, h i]

/-- C10 (witness of the amended claim): the all-occupied board over
`ℚ`. -/
theorem select_move_full_board_returns_zero_witness :
    escolherJogada (fun x => 2 * x) (extrairPesos (List.replicate 180 (0 : ℚ)))
      (fun _ : Fin 9 => 1) = 0 :=
  select_move_full_board_returns_zero (fun x => 2 * x) (List.replicate 180 (0 : ℚ))
    (List.length_replicate 180 0) (fun _ : Fin 9 => 1) (fun _ => one_ne_zero)

/-!
## C7 — invalid policy move stops the simulated game with the penalty
-/

/-- The invalid-move tag always carries one of the two large penalties
(`invalid_own_pos` at `-50`, `invalid_other_pos` at `-30`). -/
theorem invalidTag_weight (g : GameState) (mo : Option (ℤ × ℤ)) :
    fitnessWeight (invalidTag g mo) ≤ -30 := by
  rcases mo with _ | ⟨r, c⟩
  · norm_num [invalidTag, fitnessWeight]
  · unfold invalidTag
    dsimp only
    split <;> decide

/-- C7: during fitness evaluation, if at any in-play state the policy's
selected move is illegal or `None`, the simulated game stops right
there: the loop breaks, no further move is applied (the final board is
the entry board), the outcome is the `"invalid"` default, and the only
tag appended is the invalid-move tag, whose `FITNESS_WEIGHTS` value is
the large fixed penalty (`-30` or `-50`). -/
theorem simulate_invalid_move_stops (policy opp : GameState → Option (ℤ × ℤ))
    (fuel : ℕ) (g : GameState) (tags : List Tag)
    (hgo : isGameOver g = false)
    (hmv : isMoveValidZ g (policy g) = false) :
    simulateGame policy opp (fuel + 1) g tags =
      (tags ++ [invalidTag g (policy g)], Outcome.invalid, g) ∧
    fitnessWeight (invalidTag g (policy g)) ≤ -30 := by
  have hwin : g.winner = none := by
    unfold isGameOver at hgo
    rcases h : g.winner with _ | w
    · rfl
    · rw [h] at hgo
      simp at hgo
  have hmoves : (getValidMoves g).isEmpty = false := by
    unfold isGameOver at hgo
    rcases h : (getValidMoves g).isEmpty
    · rfl
    · rw [h] at hgo
      simp at hgo
  constructor
  · show (if isGameOver g then finishGame g tags else _) = _
    rw [if_neg (by rw [hgo]; exact Bool.false_ne_true)]
    dsimp only
    rw [if_pos hmv]
    unfold finishGame
    rw [if_neg (by rw [hwin]; exact fun h => Option.noConfusion h),
        if_neg (by rw [hwin]; exact fun h => Option.noConfusion h),
        if_neg (by unfold isDraw; rw [hmoves, Bool.and_false]; exact Bool.false_ne_true)]
  · exact invalidTag_weight g (policy g)

/-- C7 (witness): a policy that returns `None` on the fresh board stops
the game at once with the `-30` penalty tag. -/
theorem simulate_invalid_move_stops_witness :
    simulateGame (fun _ => none) (fun _ => none) 9 GameState.reset [] =
      ([Tag.invalid_other_pos], Outcome.invalid, GameState.reset) ∧
    fitnessWeight (invalidTag GameState.reset none) ≤ -30 := by
  have h := simulate_invalid_move_stops (fun _ => none) (fun _ => none) 8
    GameState.reset [] (by decide) (by decide)
  simpa using h

/-!
## C6 — population size invariant; C5 — elitism and best fitness
-/

/-- The offspring loop fills the next generation to exactly
`popSize` members whenever it starts no larger than `popSize` with at
least `popSize - acc.length` fuel units. -/
theorem offspringLoop_length (sorted : List (Chrom × ℤ)) (popSize : ℕ)
    (crossRate mutRate : ℚ) (rnd : ℕ → StepRand) :
    ∀ (fuel n : ℕ) (acc : List Chrom), acc.length ≤ popSize →
      popSize ≤ acc.length + fuel →
      (offspringLoop sorted popSize crossRate mutRate rnd fuel n acc).length = popSize
  | 0, n, acc, h1, h2 => by
    unfold offspringLoop
    omega
  | fuel + 1, n, acc, h1, h2 => by
    unfold offspringLoop
    by_cases hlt : acc.length < popSize
    · rw [if_pos hlt]
      dsimp only
      split
      all_goals
        rename_i hin
        apply offspringLoop_length sorted popSize crossRate mutRate rnd fuel (n + 1)
        all_goals
          simp only [List.length_append, List.length_cons, List.length_nil] at hin ⊢
          omega
    · rw [if_neg hlt]
      omega

/-- One evolution step always produces a population of exactly
`popSize` chromosomes (for any positive `popSize`). -/
theorem evolve_length (pop : List Chrom) (f : Chrom → ℤ) (popSize : ℕ)
    (crossRate mutRate : ℚ) (rnd : ℕ → StepRand) (hp : 1 ≤ popSize) :
    (evolve pop f popSize crossRate mutRate rnd).length = popSize := by
  unfold evolve
  apply offspringLoop_length
  · simpa using hp
  · simp only [List.length_cons, List.length_nil]
    omega

/-- C6: for every valid configuration (`population_size ≥ 1`), one
`evolve` step maps a population of exactly `population_size`
chromosomes to a new population of exactly `population_size`
chromosomes: elitism seeds one member and the offspring loop fills up
to the limit, never beyond it. -/
theorem evolve_preserves_population_size (pop : List Chrom) (f : Chrom → ℤ)
    (popSize : ℕ) (crossRate mutRate : ℚ) (rnd : ℕ → StepRand)
    (_hpop : pop.length = popSize) (hp : 1 ≤ popSize) :
    (evolve pop f popSize crossRate mutRate rnd).length = popSize :=
  evolve_length pop f popSize crossRate mutRate rnd hp

/-- C6 (witness): a concrete five-chromosome population stays at five
members. -/
theorem evolve_preserves_population_size_witness :
    (evolve pop5 (fun _ => 0) 5 (1/2) (1/10) (fun _ => stepRand0)).length = 5 :=
  evolve_preserves_population_size pop5 (fun _ => 0) 5 (1/2) (1/10) (fun _ => stepRand0)
    (by decide) (by decide)

/-- The offspring loop only appends: its result extends the
accumulator. -/
theorem offspringLoop_append (sorted : List (Chrom × ℤ)) (popSize : ℕ)
    (crossRate mutRate : ℚ) (rnd : ℕ → StepRand) :
    ∀ (fuel n : ℕ) (acc : List Chrom),
      ∃ r, offspringLoop sorted popSize crossRate mutRate rnd fuel n acc = acc ++ r
  | 0, n, acc => ⟨[], by unfold offspringLoop; rw [List.append_nil]⟩
  | fuel + 1, n, acc => by
    unfold offspringLoop
    by_cases hlt : acc.length < popSize
    · rw [if_pos hlt]
      dsimp only
      split
      next =>
        obtain ⟨r, hr⟩ := offspringLoop_append sorted popSize crossRate mutRate rnd fuel (n + 1) _
        rw [hr, List.append_assoc, List.append_assoc]
        exact ⟨_, rfl⟩
      next =>
        obtain ⟨r, hr⟩ := offspringLoop_append sorted popSize crossRate mutRate rnd fuel (n + 1) _
        rw [hr, List.append_assoc]
        exact ⟨_, rfl⟩
    · rw [if_neg hlt]
      exact ⟨[], by rw [List.append_nil]⟩

/-- The head of the descending merge sort used by `evolve` belongs to
the scored population. -/
theorem sorted_head_in (pwf : List (Chrom × ℤ)) (hne : pwf ≠ []) :
    ((pwf.mergeSort fun a b => b.2 ≤ a.2).headD ([], 0)) ∈ pwf := by
  cases hms : pwf.mergeSort fun a b => b.2 ≤ a.2 with
  | nil =>
    obtain ⟨x, hx⟩ := List.exists_mem_of_ne_nil pwf hne
    have : x ∈ pwf.mergeSort fun a b => b.2 ≤ a.2 := List.mem_mergeSort.mpr hx
    rw [hms] at this
    simp at this
  | cons hd tl =>
    have : hd ∈ pwf.mergeSort fun a b => b.2 ≤ a.2 := by
      rw [hms]; exact List.mem_cons_self hd tl
    simpa using List.mem_mergeSort.mp this

/-- The head of the descending merge sort dominates the fitness of
every scored chromosome. -/
theorem sorted_head_max (pwf : List (Chrom × ℤ)) (x : Chrom × ℤ) (hx : x ∈ pwf) :
    x.2 ≤ ((pwf.mergeSort fun a b => b.2 ≤ a.2).headD ([], 0)).2 := by
  have hmem : x ∈ pwf.mergeSort fun a b => b.2 ≤ a.2 := List.mem_mergeSort.mpr hx
  have hsorted := @List.sorted_mergeSort (Chrom × ℤ)
    (fun a b : Chrom × ℤ => decide (b.2 ≤ a.2))
    (fun a b c hab hbc => by
      simp only [decide_eq_true_eq] at hab hbc ⊢
      omega)
    (fun a b => by
      rcases le_total b.2 a.2 with h | h <;> simp [h])
    pwf
  cases hms : pwf.mergeSort fun a b => b.2 ≤ a.2 with
  | nil => rw [hms] at hmem; simp at hmem
  | cons hd tl =>
    rw [hms] at hmem hsorted
    rcases List.mem_cons.mp hmem with h | h
    · subst h; simp
    · have := (List.pairwise_cons.mp hsorted).1 x h
      simp only [decide_eq_true_eq] at this
      simpa using this

/-- The best fitness of a constant evaluation over a nonempty
population is that constant. -/
theorem genBest_const (k : ℤ) :
    ∀ (l : List Chrom), l ≠ [] → genBest (fun _ => k) l = (k : WithBot ℤ)
  | [], h => absurd rfl h
  | a :: t, _ => by
    unfold genBest
    rcases ht : t with _ | ⟨b, t'⟩
    · simp [List.maximum_cons]
    · have ih := genBest_const k t (by rw [ht]; exact List.cons_ne_nil b t')
      unfold genBest at ih
      rw [← ht]
      simp only [List.map_cons, List.maximum_cons, ih]
      simp

/-- C5 (counterexample): the best fitness present in generation `N+1`
can be lower than in generation `N`.  Fitness is re-evaluated every
generation by playing fresh games (`_calculate_fitness` draws random
numbers in medium difficulty, and the training schedule switches
difficulty), so the evaluation `f` differs between generations; with
the concrete population `pop5` evaluated at fitness 1 in one generation
and at fitness 0 in the next, elitism cannot prevent the drop. -/
theorem best_fitness_can_drop :
    genBest (fun _ => (0 : ℤ)) (evolve pop5 (fun _ => 1) 5 (1/2) (1/10) (fun _ => stepRand0)) <
      genBest (fun _ => (1 : ℤ)) pop5 := by
  have hlen := evolve_length pop5 (fun _ => 1) 5 (1/2) (1/10) (fun _ => stepRand0) (by omega)
  have hne : evolve pop5 (fun _ => 1) 5 (1/2) (1/10) (fun _ => stepRand0) ≠ [] := by
    intro h
    rw [h] at hlen
    simp at hlen
  rw [genBest_const 0 _ hne, genBest_const 1 pop5 (by decide)]
  exact WithBot.coe_lt_coe.mpr (by norm_num)

/-- C5 (amended): with elitism (the best chromosome is copied into the
next generation) and a fitness evaluation that is the same function in
generation `N` and `N+1` (deterministic evaluation, fixed difficulty),
the best fitness present in generation `N+1` is never lower than in
generation `N`. -/
theorem evolve_keeps_best_fitness (pop : List Chrom) (f : Chrom → ℤ) (popSize : ℕ)
    (crossRate mutRate : ℚ) (rnd : ℕ → StepRand) (_hne : pop ≠ []) :
    genBest f pop ≤ genBest f (evolve pop f popSize crossRate mutRate rnd) := by
  rcases hM : (pop.map f).maximum with _ | M
  · unfold genBest
    rw [hM]
    exact bot_le
  · have hmemM : M ∈ pop.map f := List.maximum_mem hM
    obtain ⟨c, hcpop, hcM⟩ := List.mem_map.mp hmemM
    have hpair : (c, f c) ∈ pop.map (fun c => (c, f c)) :=
      List.mem_map_of_mem _ hcpop
    have hpwfne : pop.map (fun c => (c, f c)) ≠ [] := by
      intro h
      rw [h] at hpair
      simp at hpair
    have hhead := sorted_head_in (pop.map fun c => (c, f c)) hpwfne
    obtain ⟨c', _, hc'⟩ := List.mem_map.mp hhead
    have hle : f c ≤ (((pop.map fun c => (c, f c)).mergeSort
        fun a b => b.2 ≤ a.2).headD ([], 0)).2 :=
      sorted_head_max _ _ hpair
    obtain ⟨r, hr⟩ := offspringLoop_append
      ((pop.map fun c => (c, f c)).mergeSort fun a b => b.2 ≤ a.2)
      popSize crossRate mutRate rnd popSize 0
      [(((pop.map fun c => (c, f c)).mergeSort fun a b => b.2 ≤ a.2).headD ([], 0)).1]
    have hbestmem : (((pop.map fun c => (c, f c)).mergeSort
        fun a b => b.2 ≤ a.2).headD ([], 0)).1 ∈
          evolve pop f popSize crossRate mutRate rnd := by
      unfold evolve
      rw [hr]
      exact List.mem_append_left _ (List.mem_singleton.mpr rfl)
    have hcoe : ((f (((pop.map fun c => (c, f c)).mergeSort
        fun a b => b.2 ≤ a.2).headD ([], 0)).1 : ℤ) : WithBot ℤ) ≤
          genBest f (evolve pop f popSize crossRate mutRate rnd) :=
      List.le_maximum_of_mem' (List.mem_map_of_mem f hbestmem)
    have hfb : f (((pop.map fun c => (c, f c)).mergeSort
        fun a b => b.2 ≤ a.2).headD ([], 0)).1 =
        (((pop.map fun c => (c, f c)).mergeSort
        fun a b => b.2 ≤ a.2).headD ([], 0)).2 := by
      rw [← hc']
    unfold genBest
    rw [hM]
    refine le_trans ?_ hcoe
    rw [hfb]
    exact WithBot.coe_le_coe.mpr (hcM ▸ hle)

/-- C5 (witness of the amended claim): a concrete population and a
fixed evaluation. -/
theorem evolve_keeps_best_fitness_witness :
    genBest (fun _ => (2 : ℤ)) pop5 ≤
      genBest (fun _ => (2 : ℤ)) (evolve pop5 (fun _ => 2) 5 (1/2) (1/10) (fun _ => stepRand0)) :=
  evolve_keeps_best_fitness pop5 (fun _ => 2) 5 (1/2) (1/10) (fun _ => stepRand0) (by decide)

/-!
## Minimax: equation lemmas and the frame property (C3), totality (C8),
and the forced-win property (C1)
-/

/-- `otherOf` swaps the two marks. -/
theorem otherOf_otherOf {p : Cell} (hp : p = Cell.X ∨ p = Cell.O) :
    otherOf (otherOf p) = p := by
  rcases hp with h | h <;> subst h <;> rfl

/-- `otherOf` always produces a mark. -/
theorem otherOf_mark (p : Cell) : otherOf p = Cell.X ∨ otherOf p = Cell.O := by
  unfold otherOf
  by_cases h : p = Cell.X
  · rw [if_pos h]; exact Or.inr rfl
  · rw [if_neg h]; exact Or.inl rfl

/-- Early-return branch of `minimax`: the previous mover has already
won; the score is `±(len(valid_moves) + 1)` and the board is left
untouched. -/
theorem minimax_win_eq (fuel : ℕ) (g : GameState) (p : Cell)
    (h : g.winner = some (otherOf p)) :
    minimax (fuel + 1) g p =
      ((none, if otherOf p = Cell.X then ((getValidMoves g).length : ℤ) + 1
              else -(((getValidMoves g).length : ℤ) + 1)), g) := by
  rw [minimax, if_pos h]

/-- Draw branch of `minimax`: no winner recorded and no legal moves. -/
theorem minimax_draw_eq (fuel : ℕ) (g : GameState) (p : Cell)
    (h1 : g.winner ≠ some (otherOf p)) (h2 : getValidMoves g = []) :
    minimax (fuel + 1) g p = ((none, 0), g) := by
  rw [minimax, if_neg h1, if_pos h2]

/-- Loop branch of `minimax`: the fold of `mmStep` over the legal
moves. -/
theorem minimax_loop_eq (fuel : ℕ) (g : GameState) (p : Cell)
    (h1 : g.winner ≠ some (otherOf p)) (h2 : getValidMoves g ≠ []) :
    minimax (fuel + 1) g p =
      (((getValidMoves g).foldl (mmStep fuel p) (g, none)).2.getD (none, 0),
       ((getValidMoves g).foldl (mmStep fuel p) (g, none)).1) := by
  rw [minimax, if_neg h1, if_neg h2]
  rfl

/-- The fuel-0 fallback and the early returns leave the board exactly
as received, for every fuel. -/
theorem minimax_state_of_winner (fuel : ℕ) (g : GameState) (p : Cell)
    (h : g.winner = some (otherOf p)) : (minimax fuel g p).2 = g := by
  cases fuel with
  | zero => rfl
  | succ fuel => rw [minimax_win_eq fuel g p h]

/-- Frame property of the search: from any state with no cached winner
(the invariant of play), `minimax` returns the board exactly as it
received it — every apply inside the recursion is matched by an undo on
every exit path. -/
theorem minimax_preserves_state :
    ∀ (fuel : ℕ) (g : GameState) (p : Cell), (p = Cell.X ∨ p = Cell.O) →
      g.winner = none → (minimax fuel g p).2 = g
  | 0, g, p, _, _ => rfl
  | fuel + 1, g, p, hp, hw => by
    have h1 : g.winner ≠ some (otherOf p) := by
      rw [hw]; exact fun h => Option.noConfusion h
    by_cases h2 : getValidMoves g = []
    · rw [minimax_draw_eq fuel g p h1 h2]
    · rw [minimax_loop_eq fuel g p h1 h2]
      have key : ∀ (ms : List (Fin 3 × Fin 3)) (b : Option (Option (Fin 3 × Fin 3) × ℤ)),
          (∀ m ∈ ms, g.cells m.1 m.2 = Cell.E) →
          (ms.foldl (mmStep fuel p) (g, b)).1 = g := by
        intro ms
        induction ms with
        | nil => intro b _; rfl
        | cons m t ih =>
          intro b hms
          have hmE : g.cells m.1 m.2 = Cell.E := hms m (List.mem_cons_self m t)
          have hstep : mmStep fuel p (g, b) m =
              (g, (mmStep fuel p (g, b) m).2) := by
            unfold mmStep
            dsimp only
            have hback : (minimax fuel ((makeMoveF g m p).1) (otherOf p)).2 =
                (makeMoveF g m p).1 := by
              by_cases hwin : checkWinner (setCell g m p) p
              · apply minimax_state_of_winner
                rw [makeMoveF_fst_winner hmE, if_pos hwin, otherOf_otherOf hp]
              · apply minimax_preserves_state fuel _ _ (otherOf_mark p)
                rw [makeMoveF_fst_winner hmE, if_neg hwin, hw]
            rw [hback, undoMoveF_makeMoveF hmE hw]
          rw [List.foldl_cons, hstep]
          exact ih _ fun m' hm' => hms m' (List.mem_cons_of_mem m hm')
      exact key (getValidMoves g) none fun m hm => mem_getValidMoves.mp hm

/-- C3 (counterexample): "for every board" is too strong — on a board
whose cached winner is the mover himself (`wonStateFull`: `X` has won,
winner cached, one empty cell, `X` asked to move again), the search
applies a move, the recursion's early return fires for the child, and
the final `undo_move` wipes the cached winner: the board comes back
changed. -/
theorem choose_move_hard_corrupts_cached_winner :
    ((chooseMove wonStateFull Cell.X Difficulty.hard 0 0).2).winner = none ∧
      wonStateFull.winner = some Cell.X := by
  decide

/-- C3 (amended): for every board with no cached winner (the invariant
of every in-play call site) and either mark to move, a hard-mode
`choose_move` call returns the board exactly in the state it received
it: every move applied inside the recursive search is undone on every
exit path. -/
theorem choose_move_hard_preserves_board (g : GameState) (p : Cell) (rd : ℚ) (rc : ℕ)
    (hp : p = Cell.X ∨ p = Cell.O) (hw : g.winner = none) :
    (chooseMove g p Difficulty.hard rd rc).2 = g := by
  unfold chooseMove
  dsimp only
  by_cases h : getValidMoves g = []
  · rw [if_pos h]
  · rw [if_neg h]
    exact minimax_preserves_state 10 g p hp hw

/-- C3 (witness): the concrete two-in-a-row board is returned
untouched. -/
theorem choose_move_hard_preserves_board_witness :
    (chooseMove c1board Cell.X Difficulty.hard 0 0).2 = c1board :=
  choose_move_hard_preserves_board c1board Cell.X 0 0 (Or.inl rfl) (by decide)

/-- The loop-step best update when the running best is still the
`-inf` initial value: the first child always installs itself. -/
theorem mmStep_snd_none (fuel : ℕ) (p : Cell)
    (acc : GameState × Option (Option (Fin 3 × Fin 3) × ℤ)) (m : Fin 3 × Fin 3)
    (h : acc.2 = none) :
    (mmStep fuel p acc m).2 =
      some (some m, (minimax fuel ((makeMoveF acc.1 m p).1) (otherOf p)).1.2) := by
  unfold mmStep
  dsimp only
  rw [h]

/-- The loop-step best update against an already-installed best. -/
theorem mmStep_snd_some (fuel : ℕ) (p : Cell)
    (acc : GameState × Option (Option (Fin 3 × Fin 3) × ℤ)) (m : Fin 3 × Fin 3)
    (b : Option (Fin 3 × Fin 3) × ℤ) (h : acc.2 = some b) :
    (mmStep fuel p acc m).2 =
      (if p = Cell.X then
        (if (minimax fuel ((makeMoveF acc.1 m p).1) (otherOf p)).1.2 > b.2 then
          some (some m, (minimax fuel ((makeMoveF acc.1 m p).1) (otherOf p)).1.2)
         else some b)
       else
        (if (minimax fuel ((makeMoveF acc.1 m p).1) (otherOf p)).1.2 < b.2 then
          some (some m, (minimax fuel ((makeMoveF acc.1 m p).1) (otherOf p)).1.2)
         else some b)) := by
  unfold mmStep
  dsimp only
  rw [h]

/-- Once the minimax loop has run at least one iteration, the running
best is a `some` whose recorded position is a `some`. -/
theorem mmFold_pos (fuel : ℕ) (p : Cell) :
    ∀ (ms : List (Fin 3 × Fin 3)) (acc : GameState × Option (Option (Fin 3 × Fin 3) × ℤ)),
      (∀ q, acc.2 = some q → q.1.isSome) → (acc.2 ≠ none ∨ ms ≠ []) →
      ∃ q, (ms.foldl (mmStep fuel p) acc).2 = some q ∧ q.1.isSome
  | [], acc, hq, hne => by
    rcases hacc : acc.2 with _ | q
    · rcases hne with h | h
      · exact absurd hacc h
      · exact absurd rfl h
    · exact ⟨q, hacc, hq q hacc⟩
  | m :: t, acc, hq, _ => by
    rw [List.foldl_cons]
    apply mmFold_pos fuel p t (mmStep fuel p acc m)
    · intro q' hq'
      rcases hacc : acc.2 with _ | b
      · rw [mmStep_snd_none fuel p acc m hacc] at hq'
        injection hq' with h
        rw [← h]
        rfl
      · rw [mmStep_snd_some fuel p acc m b hacc] at hq'
        have hb := hq b hacc
        split_ifs at hq' <;> (injection hq' with h; rw [← h]) <;> first | rfl | exact hb
    · left
      rcases hacc : acc.2 with _ | b
      · rw [mmStep_snd_none fuel p acc m hacc]
        exact fun h => Option.noConfusion h
      · rw [mmStep_snd_some fuel p acc m b hacc]
        split_ifs <;> exact fun h => Option.noConfusion h

/-- C8 (counterexample): a board with four legal moves on which
hard-mode `choose_move` nevertheless returns `None`: the cached winner
equals the mover's opponent, so the search takes its early return
before examining any move. -/
theorem choose_move_none_with_moves_left :
    (chooseMove wonState Cell.O Difficulty.hard 0 0).1 = none ∧
      getValidMoves wonState ≠ [] := by
  decide

/-- C8 (amended): `choose_move` returns `None` only on a full board or
when the cached winner is the mover's opponent (a state legal play
never offers it, since the game stops on a win): for every board with
at least one legal move whose cached winner is not the mover's
opponent, both hard and medium difficulty return a move. -/
theorem choose_move_returns_move (g : GameState) (p : Cell) (d : Difficulty)
    (rd : ℚ) (rc : ℕ) (hmv : getValidMoves g ≠ [])
    (hw : g.winner ≠ some (otherOf p)) (hd : d = .hard ∨ d = .medium) :
    ((chooseMove g p d rd rc).1).isSome := by
  have hard_case : ((minimax 10 g p).1.1).isSome := by
    rw [minimax_loop_eq 9 g p hw hmv]
    obtain ⟨q, hq, hqs⟩ := mmFold_pos 9 p (getValidMoves g) (g, none)
      (fun q h => Option.noConfusion h) (Or.inr hmv)
    dsimp only
    rw [hq]
    exact hqs
  unfold chooseMove
  dsimp only
  rw [if_neg hmv]
  rcases hd with h | h <;> subst h
  · exact hard_case
  · dsimp only
    by_cases hrd : rd < 1/2
    · rw [if_pos hrd]
      exact hard_case
    · rw [if_neg hrd]
      rfl

/-- C8 (witness): hard mode on the concrete two-in-a-row board returns
a move. -/
theorem choose_move_returns_move_witness :
    ((chooseMove c1board Cell.X Difficulty.hard 0 0).1).isSome :=
  choose_move_returns_move c1board Cell.X Difficulty.hard 0 0 (by decide) (by decide)
    (Or.inl rfl)

/-- Writing a mark into an empty cell removes exactly one legal move. -/
theorem length_valid_setCell (g : GameState) (m : Fin 3 × Fin 3) (s : Cell)
    (hE : g.cells m.1 m.2 = Cell.E) (hs : s ≠ Cell.E) :
    (getValidMoves (setCell g m s)).length + 1 = (getValidMoves g).length := by
  obtain ⟨mr, mc⟩ := m
  dsimp only at hE
  have hfin : (List.finRange 3) = [(0 : Fin 3), 1, 2] := rfl
  have hrow : ∀ r : Fin 3, r ≠ mr →
      ((List.finRange 3).filter fun c => (setCell g (mr, mc) s).cells r c = Cell.E) =
      ((List.finRange 3).filter fun c => g.cells r c = Cell.E) := by
    intro r hr
    apply List.filter_congr
    intro c _
    have hcell : (setCell g (mr, mc) s).cells r c = g.cells r c := by
      show (if r = mr ∧ c = mc then s else g.cells r c) = g.cells r c
      rw [if_neg]
      rintro ⟨h1, _⟩
      exact hr h1
    rw [hcell]
  have hcell_eq : ∀ c : Fin 3, c ≠ mc → (setCell g (mr, mc) s).cells mr c = g.cells mr c := by
    intro c hc
    show (if mr = mr ∧ c = mc then s else g.cells mr c) = g.cells mr c
    rw [if_neg]
    rintro ⟨_, h2⟩
    exact hc h2
  have hcell_m : (setCell g (mr, mc) s).cells mr mc = s := by
    show (if mr = mr ∧ mc = mc then s else g.cells mr mc) = s
    rw [if_pos ⟨rfl, rfl⟩]
  have hrowm : ((List.finRange 3).filter fun c =>
        (setCell g (mr, mc) s).cells mr c = Cell.E).length + 1 =
      ((List.finRange 3).filter fun c => g.cells mr c = Cell.E).length := by
    rw [hfin]
    fin_cases mc <;>
      simp_all [List.filter_cons] <;> split_ifs <;> simp_all
  rw [hfin] at hrow hrowm
  unfold getValidMoves
  rw [hfin]
  simp only [List.flatMap_cons, List.flatMap_nil, List.append_nil, List.length_append,
    List.length_map]
  have hmr : mr = 0 ∨ mr = 1 ∨ mr = 2 := by omega
  rcases hmr with h | h | h <;> subst h
  · rw [hrow 1 (by decide), hrow 2 (by decide)]
    omega
  · rw [hrow 0 (by decide), hrow 2 (by decide)]
    omega
  · rw [hrow 0 (by decide), hrow 1 (by decide)]
    omega

/-- The legal moves depend only on the grid, not on the cached
winner. -/
theorem getValidMoves_of_cells_eq {a b : GameState} (h : a.cells = b.cells) :
    getValidMoves a = getValidMoves b := by
  unfold getValidMoves
  rw [h]

/-- After a legal move the search recursion restores the child board
(frame property packaged for the loop step). -/
theorem mmStep_fst (fuel : ℕ) (p : Cell) (g : GameState)
    (b : Option (Option (Fin 3 × Fin 3) × ℤ)) (m : Fin 3 × Fin 3)
    (hp : p = Cell.X ∨ p = Cell.O) (hw : g.winner = none)
    (hE : g.cells m.1 m.2 = Cell.E) :
    (mmStep fuel p (g, b) m).1 = g := by
  unfold mmStep
  dsimp only
  have hback : (minimax fuel ((makeMoveF g m p).1) (otherOf p)).2 =
      (makeMoveF g m p).1 := by
    by_cases hwin : checkWinner (setCell g m p) p
    · apply minimax_state_of_winner
      rw [makeMoveF_fst_winner hE, if_pos hwin, otherOf_otherOf hp]
    · apply minimax_preserves_state fuel _ _ (otherOf_mark p)
      rw [makeMoveF_fst_winner hE, if_neg hwin, hw]
  rw [hback, undoMoveF_makeMoveF hE hw]

/-- Collapsing the stateful minimax loop to its pure running-best fold:
with no cached winner and legal moves only, the board component stays
at `g` and the best component is the `pureStep` fold of the child
scores. -/
theorem foldl_mmStep_pure (fuel : ℕ) (p : Cell) (g : GameState)
    (hp : p = Cell.X ∨ p = Cell.O) (hw : g.winner = none) :
    ∀ (ms : List (Fin 3 × Fin 3)) (b : Option (Option (Fin 3 × Fin 3) × ℤ)),
      (∀ m ∈ ms, g.cells m.1 m.2 = Cell.E) →
      ms.foldl (mmStep fuel p) (g, b) = (g, ms.foldl (pureStep p (scoreOf fuel p g)) b)
  | [], b, _ => rfl
  | m :: t, b, hms => by
    have hE : g.cells m.1 m.2 = Cell.E := hms m (List.mem_cons_self m t)
    have hfst : (mmStep fuel p (g, b) m).1 = g := mmStep_fst fuel p g b m hp hw hE
    have hsnd : (mmStep fuel p (g, b) m).2 = pureStep p (scoreOf fuel p g) b m := by
      rcases b with _ | q
      · rw [mmStep_snd_none fuel p (g, none) m rfl]
        rfl
      · rw [mmStep_snd_some fuel p (g, some q) m q rfl]
        rfl
    have hstep : mmStep fuel p (g, b) m = (g, pureStep p (scoreOf fuel p g) b m) :=
      Prod.ext hfst hsnd
    rw [List.foldl_cons, List.foldl_cons, hstep]
    exact foldl_mmStep_pure fuel p g hp hw t _
      fun m' hm' => hms m' (List.mem_cons_of_mem m hm')

/-- The child reached by an immediately winning move scores exactly
`±(number of legal moves of the parent)`: the early return credits
`len(valid_moves) + 1` on the child board, which has one fewer empty
cell than the parent. -/
theorem scoreOf_win (fuel : ℕ) (g : GameState) (p : Cell) (m : Fin 3 × Fin 3)
    (hp : p = Cell.X ∨ p = Cell.O) (hE : g.cells m.1 m.2 = Cell.E)
    (hwin : checkWinner (setCell g m p) p = true) :
    scoreOf (fuel + 1) p g m =
      if p = Cell.X then ((getValidMoves g).length : ℤ)
      else -((getValidMoves g).length : ℤ) := by
  have hpne : p ≠ Cell.E := by
    rcases hp with h | h <;> subst h <;> exact fun h => Cell.noConfusion h
  have hw1 : ((makeMoveF g m p).1).winner = some (otherOf (otherOf p)) := by
    rw [makeMoveF_fst_winner hE, if_pos hwin, otherOf_otherOf hp]
  unfold scoreOf
  rw [minimax_win_eq fuel ((makeMoveF g m p).1) (otherOf p) hw1]
  dsimp only
  have hlen : ((getValidMoves ((makeMoveF g m p).1)).length : ℤ) + 1 =
      ((getValidMoves g).length : ℤ) := by
    rw [getValidMoves_of_cells_eq (makeMoveF_fst_cells hE)]
    have hnat := length_valid_setCell g m p hE hpne
    omega
  rw [otherOf_otherOf hp]
  rcases hp with h | h <;> subst h
  · rw [if_pos rfl, if_pos rfl]
    omega
  · rw [if_neg (fun h => Cell.noConfusion h), if_neg (fun h => Cell.noConfusion h)]
    omega

/-- The running best of the pure fold stays within any bound that
covers the start value and every child score; the `-inf` fallback of an
empty loop reads as score `0`. -/
theorem pureFold_bound (p : Cell) (σ : Fin 3 × Fin 3 → ℤ) (B : ℤ) (hB : 0 ≤ B) :
    ∀ (ms : List (Fin 3 × Fin 3)) (b : Option (Option (Fin 3 × Fin 3) × ℤ)),
      (∀ m ∈ ms, -B ≤ σ m ∧ σ m ≤ B) →
      (∀ q, b = some q → -B ≤ q.2 ∧ q.2 ≤ B) →
      -B ≤ ((ms.foldl (pureStep p σ) b).getD (none, 0)).2 ∧
        ((ms.foldl (pureStep p σ) b).getD (none, 0)).2 ≤ B
  | [], b, _, hq => by
    rcases b with _ | q
    · dsimp only [List.foldl_nil, Option.getD]
      omega
    · dsimp only [List.foldl_nil, Option.getD]
      exact hq q rfl
  | m :: t, b, hms, hq => by
    rw [List.foldl_cons]
    apply pureFold_bound p σ B hB t _
      (fun m' hm' => hms m' (List.mem_cons_of_mem m hm'))
    intro q' hq'
    have hm := hms m (List.mem_cons_self m t)
    rcases b with _ | q
    · unfold pureStep at hq'
      dsimp only at hq'
      injection hq' with h
      rw [← h]
      exact hm
    · unfold pureStep at hq'
      dsimp only at hq'
      have hqq := hq q rfl
      split_ifs at hq' <;> (injection hq' with h; rw [← h]) <;>
        first | exact hm | exact hqq

/-- Score bound of the search: from a state with no cached winner, the
minimax value is at most the number of remaining legal moves in
absolute value (a win recorded `d` plies down scores
`(empties − d) + 1 ≤ empties`). -/
theorem minimax_score_bound :
    ∀ (fuel : ℕ) (g : GameState) (p : Cell), (p = Cell.X ∨ p = Cell.O) →
      g.winner = none →
      -((getValidMoves g).length : ℤ) ≤ (minimax fuel g p).1.2 ∧
        (minimax fuel g p).1.2 ≤ ((getValidMoves g).length : ℤ)
  | 0, g, p, _, _ => by
    dsimp only [minimax]
    constructor
    · have : (0 : ℤ) ≤ ((getValidMoves g).length : ℤ) := Int.ofNat_nonneg _
      omega
    · exact Int.ofNat_nonneg _
  | fuel + 1, g, p, hp, hw => by
    have h1 : g.winner ≠ some (otherOf p) := by
      rw [hw]
      exact fun h => Option.noConfusion h
    by_cases h2 : getValidMoves g = []
    · rw [minimax_draw_eq fuel g p h1 h2]
      dsimp only
      constructor
      · have : (0 : ℤ) ≤ ((getValidMoves g).length : ℤ) := Int.ofNat_nonneg _
        omega
      · exact Int.ofNat_nonneg _
    · rw [minimax_loop_eq fuel g p h1 h2]
      dsimp only
      rw [foldl_mmStep_pure fuel p g hp hw (getValidMoves g) none
        (fun m' hm' => mem_getValidMoves.mp hm')]
      dsimp only
      apply pureFold_bound p (scoreOf fuel p g) ((getValidMoves g).length : ℤ)
        (Int.ofNat_nonneg _) (getValidMoves g) none
      · intro m hm
        have hE : g.cells m.1 m.2 = Cell.E := mem_getValidMoves.mp hm
        have hpne : p ≠ Cell.E := by
          rcases hp with h | h <;> subst h <;> exact fun h => Cell.noConfusion h
        by_cases hwin : checkWinner (setCell g m p) p
        · cases fuel with
          | zero =>
            have : scoreOf 0 p g m = 0 := rfl
            rw [this]
            have : (0 : ℤ) ≤ ((getValidMoves g).length : ℤ) := Int.ofNat_nonneg _
            omega
          | succ fuel =>
            rw [scoreOf_win fuel g p m hp hE hwin]
            split_ifs <;> omega
        · have hw1 : ((makeMoveF g m p).1).winner = none := by
            rw [makeMoveF_fst_winner hE, if_neg hwin, hw]
          have hbound := minimax_score_bound fuel ((makeMoveF g m p).1) (otherOf p)
            (otherOf_mark p) hw1
          have hlen : ((getValidMoves ((makeMoveF g m p).1)).length : ℤ) + 1 =
              ((getValidMoves g).length : ℤ) := by
            rw [getValidMoves_of_cells_eq (makeMoveF_fst_cells hE)]
            have hnat := length_valid_setCell g m p hE hpne
            omega
          have hsc : scoreOf fuel p g m =
              (minimax fuel ((makeMoveF g m p).1) (otherOf p)).1.2 := rfl
          rw [hsc]
          omega
      · intro q hq
        exact absurd hq (fun h => Option.noConfusion h)

/-- Maximising fold: a running best that already dominates every
remaining child score survives the rest of the loop (the source
replaces only on a strictly greater score). -/
theorem pureFold_max_keeps (σ : Fin 3 × Fin 3 → ℤ) :
    ∀ (ms : List (Fin 3 × Fin 3)) (q : Option (Fin 3 × Fin 3) × ℤ),
      (∀ m ∈ ms, σ m ≤ q.2) →
      ms.foldl (pureStep Cell.X σ) (some q) = some q
  | [], _, _ => rfl
  | m :: t, q, hms => by
    rw [List.foldl_cons]
    have hstep : pureStep Cell.X σ (some q) m = some q := by
      unfold pureStep
      dsimp only
      rw [if_pos rfl, if_neg (not_lt.mpr (hms m (List.mem_cons_self m t)))]
    rw [hstep]
    exact pureFold_max_keeps σ t q fun m' hm' => hms m' (List.mem_cons_of_mem m hm')

/-- Maximising fold: a child whose score strictly dominates every other
child and the running best is selected, whatever the order. -/
theorem pureFold_max_takes (σ : Fin 3 × Fin 3 → ℤ) (m0 : Fin 3 × Fin 3) :
    ∀ (ms : List (Fin 3 × Fin 3)) (b : Option (Option (Fin 3 × Fin 3) × ℤ)),
      m0 ∈ ms → (∀ m ∈ ms, m ≠ m0 → σ m < σ m0) →
      (b = none ∨ ∃ q, b = some q ∧ q.2 < σ m0) →
      ms.foldl (pureStep Cell.X σ) b = some (some m0, σ m0)
  | [], _, hm0, _, _ => absurd hm0 (List.not_mem_nil m0)
  | m :: t, b, hm0, hlt, hb => by
    rw [List.foldl_cons]
    by_cases hm : m = m0
    · subst hm
      have hstep : pureStep Cell.X σ b m = some (some m, σ m) := by
        rcases hb with h | ⟨q, hq, hqlt⟩
        · subst h
          rfl
        · subst hq
          unfold pureStep
          dsimp only
          rw [if_pos rfl, if_pos hqlt]
      rw [hstep]
      exact pureFold_max_keeps σ t (some m, σ m) fun m' hm' => by
        by_cases h : m' = m
        · subst h
          exact le_refl _
        · exact le_of_lt (hlt m' (List.mem_cons_of_mem m hm') h)
    · have hm0t : m0 ∈ t := by
        rcases List.mem_cons.mp hm0 with h | h
        · exact absurd h.symm hm
        · exact h
      have hmlt : σ m < σ m0 := hlt m (List.mem_cons_self m t) hm
      apply pureFold_max_takes σ m0 t _ hm0t
        (fun m' hm' h' => hlt m' (List.mem_cons_of_mem m hm') h')
      rcases hb with h | ⟨q, hq, hqlt⟩
      · subst h
        exact Or.inr ⟨(some m, σ m), rfl, hmlt⟩
      · subst hq
        unfold pureStep
        dsimp only
        rw [if_pos rfl]
        by_cases hcmp : σ m > q.2
        · rw [if_pos hcmp]
          exact Or.inr ⟨(some m, σ m), rfl, hmlt⟩
        · rw [if_neg hcmp]
          exact Or.inr ⟨q, rfl, hqlt⟩

/-- Minimising fold (the searching side is `"O"`): a running best that
is below every remaining child score survives the loop. -/
theorem pureFold_min_keeps (σ : Fin 3 × Fin 3 → ℤ) :
    ∀ (ms : List (Fin 3 × Fin 3)) (q : Option (Fin 3 × Fin 3) × ℤ),
      (∀ m ∈ ms, q.2 ≤ σ m) →
      ms.foldl (pureStep Cell.O σ) (some q) = some q
  | [], _, _ => rfl
  | m :: t, q, hms => by
    rw [List.foldl_cons]
    have hstep : pureStep Cell.O σ (some q) m = some q := by
      unfold pureStep
      dsimp only
      rw [if_neg (fun h => Cell.noConfusion h),
        if_neg (not_lt.mpr (hms m (List.mem_cons_self m t)))]
    rw [hstep]
    exact pureFold_min_keeps σ t q fun m' hm' => hms m' (List.mem_cons_of_mem m hm')

/-- Minimising fold: the strictly smallest child score is selected. -/
theorem pureFold_min_takes (σ : Fin 3 × Fin 3 → ℤ) (m0 : Fin 3 × Fin 3) :
    ∀ (ms : List (Fin 3 × Fin 3)) (b : Option (Option (Fin 3 × Fin 3) × ℤ)),
      m0 ∈ ms → (∀ m ∈ ms, m ≠ m0 → σ m0 < σ m) →
      (b = none ∨ ∃ q, b = some q ∧ σ m0 < q.2) →
      ms.foldl (pureStep Cell.O σ) b = some (some m0, σ m0)
  | [], _, hm0, _, _ => absurd hm0 (List.not_mem_nil m0)
  | m :: t, b, hm0, hlt, hb => by
    rw [List.foldl_cons]
    by_cases hm : m = m0
    · subst hm
      have hstep : pureStep Cell.O σ b m = some (some m, σ m) := by
        rcases hb with h | ⟨q, hq, hqlt⟩
        · subst h
          rfl
        · subst hq
          unfold pureStep
          dsimp only
          rw [if_neg (fun h => Cell.noConfusion h), if_pos hqlt]
      rw [hstep]
      exact pureFold_min_keeps σ t (some m, σ m) fun m' hm' => by
        by_cases h : m' = m
        · subst h
          exact le_refl _
        · exact le_of_lt (hlt m' (List.mem_cons_of_mem m hm') h)
    · have hm0t : m0 ∈ t := by
        rcases List.mem_cons.mp hm0 with h | h
        · exact absurd h.symm hm
        · exact h
      have hmlt : σ m0 < σ m := hlt m (List.mem_cons_self m t) hm
      apply pureFold_min_takes σ m0 t _ hm0t
        (fun m' hm' h' => hlt m' (List.mem_cons_of_mem m hm') h')
      rcases hb with h | ⟨q, hq, hqlt⟩
      · subst h
        exact Or.inr ⟨(some m, σ m), rfl, hmlt⟩
      · subst hq
        unfold pureStep
        dsimp only
        rw [if_neg (fun h => Cell.noConfusion h)]
        by_cases hcmp : σ m < q.2
        · rw [if_pos hcmp]
          exact Or.inr ⟨(some m, σ m), rfl, hmlt⟩
        · rw [if_neg hcmp]
          exact Or.inr ⟨q, rfl, hqlt⟩

/-- C1: from any position with no cached winner in which the side to
move has exactly one immediate winning move, hard-mode `choose_move`
returns that winning move (this covers every position reachable in
legal play, where the game stops as soon as a winner is cached).  The
winning child scores `±len(valid_moves)` while every other child is
bounded by `len(valid_moves) − 1` in absolute value, so the strict
best-score update selects the winning move regardless of move order. -/
theorem hard_mode_plays_the_winning_move (g : GameState) (p : Cell)
    (m : Fin 3 × Fin 3) (rd : ℚ) (rc : ℕ)
    (hp : p = Cell.X ∨ p = Cell.O) (hw : g.winner = none)
    (hm : m ∈ getValidMoves g)
    (hwin : checkWinner (setCell g m p) p = true)
    (huniq : ∀ m' ∈ getValidMoves g, m' ≠ m → checkWinner (setCell g m' p) p = false) :
    (chooseMove g p Difficulty.hard rd rc).1 = some m := by
  have hne : getValidMoves g ≠ [] := List.ne_nil_of_mem hm
  have h1 : g.winner ≠ some (otherOf p) := by
    rw [hw]
    exact fun h => Option.noConfusion h
  have hE : g.cells m.1 m.2 = Cell.E := mem_getValidMoves.mp hm
  have hpne : p ≠ Cell.E := by
    rcases hp with h | h <;> subst h <;> exact fun h => Cell.noConfusion h
  have he1 : (1 : ℤ) ≤ ((getValidMoves g).length : ℤ) := by
    have := List.length_pos.mpr hne
    omega
  unfold chooseMove
  dsimp only
  rw [if_neg hne]
  dsimp only
  rw [show (10 : ℕ) = 9 + 1 from rfl, minimax_loop_eq 9 g p h1 hne]
  dsimp only
  rw [foldl_mmStep_pure 9 p g hp hw (getValidMoves g) none
    (fun m' hm' => mem_getValidMoves.mp hm')]
  dsimp only
  rw [show (9 : ℕ) = 8 + 1 from rfl]
  have hscm := scoreOf_win 8 g p m hp hE hwin
  have hother : ∀ m' ∈ getValidMoves g, m' ≠ m →
      -(((getValidMoves g).length : ℤ) - 1) ≤ scoreOf (8 + 1) p g m' ∧
        scoreOf (8 + 1) p g m' ≤ ((getValidMoves g).length : ℤ) - 1 := by
    intro m' hm' hne'
    have hE' : g.cells m'.1 m'.2 = Cell.E := mem_getValidMoves.mp hm'
    have hnw := huniq m' hm' hne'
    have hw1 : ((makeMoveF g m' p).1).winner = none := by
      rw [makeMoveF_fst_winner hE', if_neg (by simp [hnw]), hw]
    have hb := minimax_score_bound (8 + 1) ((makeMoveF g m' p).1) (otherOf p)
      (otherOf_mark p) hw1
    have hlen' : ((getValidMoves ((makeMoveF g m' p).1)).length : ℤ) + 1 =
        ((getValidMoves g).length : ℤ) := by
      rw [getValidMoves_of_cells_eq (makeMoveF_fst_cells hE')]
      have hnat := length_valid_setCell g m' p hE' hpne
      omega
    have hsc : scoreOf (8 + 1) p g m' =
        (minimax (8 + 1) ((makeMoveF g m' p).1) (otherOf p)).1.2 := rfl
    rw [hsc]
    omega
  rcases hp with hpX | hpO
  · subst hpX
    rw [if_pos rfl] at hscm
    rw [pureFold_max_takes (scoreOf (8 + 1) Cell.X g) m (getValidMoves g) none hm
      (fun m' hm' hne' => by
        have h2 := (hother m' hm' hne').2
        omega)
      (Or.inl rfl)]
    rfl
  · subst hpO
    rw [if_neg (fun h => Cell.noConfusion h)] at hscm
    rw [pureFold_min_takes (scoreOf (8 + 1) Cell.O g) m (getValidMoves g) none hm
      (fun m' hm' hne' => by
        have h2 := (hother m' hm' hne').1
        omega)
      (Or.inl rfl)]
    rfl

/-- C1 (witness): on the specification's concrete board
`[X, X, _, _, O, _, O, _, _]` with `X` to move, cell `(0, 2)` (flat
index 2) is the unique immediate winning move and hard-mode search
returns it. -/
theorem hard_mode_plays_the_winning_move_witness :
    checkWinner (setCell c1board (0, 2) Cell.X) Cell.X = true ∧
      (chooseMove c1board Cell.X Difficulty.hard 0 0).1 = some (0, 2) :=
  ⟨by decide,
   hard_mode_plays_the_winning_move c1board Cell.X (0, 2) 0 0 (Or.inl rfl) rfl
     (by decide) (by decide) (by decide)⟩
